import Mathlib

/-!
Verification of the optimistic-update and data-synchronization core of the
Life-Tracker web client.

The definitions below are shallow embeddings of the JavaScript source:

* `src/hooks/useTrackerData.js` — stats loading with the request-epoch
  staleness guard, the merge algorithm, the debounced refresh scheduler and
  the pending-toggle set (`markTogglePending` / `removeTogglePending` /
  `hasAnyPendingForDate`);
* `src/hooks/useOptimisticToggle.js` — the optimistic toggle controller
  (`handleToggle`);
* `src/pages/HabitTracker.jsx` — the habit-specific `updateStats` /
  `createNewDayStat` callbacks;
* `src/lib/dateUtils.js` — `toISODateString` and the timing constants.

JavaScript strings are Lean `String`s; a JS `Set` of strings is a duplicate-free
`List String` (insertion order preserved, `add` is add-if-absent, `delete`
removes the element); a JS `Map` and a JS object used as a dictionary are
association lists with set-or-replace-in-place semantics, matching JS insertion
order.  Machine timestamps are `Int` milliseconds.  The ECMAScript `Date`
built-in (an external dependency of `dateUtils.js`) is embedded as the
proleptic Gregorian calendar with a fixed timezone offset, see the date
section below.
-/

namespace LifeTracker

/-! ## JS string primitives

`String.startsWith` and the default-locale `localeCompare` comparator are
re-implemented over `List Char` so that every definition evaluates inside the
kernel.  On the ASCII day keys and pending keys used by the tracker,
`localeCompare` order coincides with code-unit order.
-/

/-- Char-list version of JS `pre.isPrefix-like` test: `leadsWith pre s` is
true iff the char list `pre` is an initial segment of `s`. -/
def leadsWith : List Char → List Char → Bool
  | [], _ => true
  | _ :: _, [] => false
  | a :: as, b :: bs => a == b && leadsWith as bs

/-- JS `s.startsWith pre`. -/
def jsStartsWith (s pre : String) : Bool := leadsWith pre.data s.data

/-- Code-unit (lexicographic) order on char lists, the order produced by
`a.localeCompare b` on ASCII strings. -/
def charListLe : List Char → List Char → Bool
  | [], _ => true
  | _ :: _, [] => false
  | a :: as, b :: bs => if a = b then charListLe as bs else decide (a < b)

/-- Comparator used by the `.sort` call in `useOptimisticToggle.js`:
`(a, b) => a.date.localeCompare(b.date)` made into a ≤ test. -/
def dateLe (a b : String) : Bool := charListLe a.data b.data

/-! ## Data model: `DayStat`

One per-day record of the tracked domain.  `statuses` embeds the
`habitStatuses` (resp. `prayerStatuses`) object: an association list from
entity id to the boolean done flag, unique keys, insertion-ordered.  An
absent key means "not done".  `percentage` is the derived completion
percentage. -/
structure DayStat where
  date : String
  statuses : List (String × Bool)
  percentage : Nat
  deriving Repr, DecidableEq

/-- JS object read `obj[k] || false` on a boolean-valued dictionary. -/
def statusGet : List (String × Bool) → String → Bool
  | [], _ => false
  | (a, v) :: rest, k => if a = k then v else statusGet rest k

/-- JS object write `obj[k] = b`: replace in place if the key exists, else
append (insertion order). -/
def statusSet : List (String × Bool) → String → Bool → List (String × Bool)
  | [], k, b => [(k, b)]
  | (a, v) :: rest, k, b =>
    if a = k then (a, b) :: rest else (a, v) :: statusSet rest k b

/-- Spread-and-overwrite `{...day, date: dateKey}` used by the loader to
normalize the date field of a record. -/
def normalizeDay (norm : String → String) (d : DayStat) : DayStat :=
  { d with date := norm d.date }

/-! ## Pending-toggle set (`useTrackerData.js`, lines 195–221)

`pendingTogglesRef.current` is a JS `Set` of string keys. -/

/-- Key construction shared by `markTogglePending` and `removeTogglePending`:
`id ? dateStr-id : dateStr`.  JS truthiness makes the empty-string id fall
back to the bare date. -/
def toggleKey (dateStr : String) (id : Option String) : String :=
  match id with
  | some i => if i = "" then dateStr else dateStr ++ "-" ++ i
  | none => dateStr

/-- Set membership used when modelling `Set.add`. -/
def setHas (s : List String) (k : String) : Bool := s.any (fun x => x == k)

/-- JS `Set.add`: append the key if it is not already present. -/
def setAdd (s : List String) (k : String) : List String :=
  if setHas s k then s else s ++ [k]

/-- Function `markTogglePending(dateStr, id)` from `useTrackerData.js`. -/
def markTogglePending (pending : List String) (dateStr : String)
    (id : Option String) : List String :=
  setAdd pending (toggleKey dateStr id)

/-- Function `removeTogglePending(dateStr, id)` from `useTrackerData.js`.  JS
`Set.delete` removes the (unique) occurrence of the key; on the
duplicate-free lists produced by `setAdd` this is a filter. -/
def removeTogglePending (pending : List String) (dateStr : String)
    (id : Option String) : List String :=
  pending.filter (fun k => k != toggleKey dateStr id)

/-- Function `hasAnyPendingForDate(dateStr)`: some key of the set starts with the
date string. -/
def hasAnyPendingForDate (pending : List String) (dateStr : String) : Bool :=
  pending.any (fun key => jsStartsWith key dateStr)

/-! ## Claim C10 : the pending tracker is a set, not a counter -/

theorem setAdd_idem (s : List String) (k : String) :
    setAdd (setAdd s k) k = setAdd s k := by
  by_cases hc : setHas s k = true
  · unfold setAdd
    rw [if_pos hc, if_pos hc]
  · have happ : setHas (s ++ [k]) k = true := by
      unfold setHas
      simp
    unfold setAdd
    rw [if_neg hc, if_pos happ]

theorem any_of_sublist_false {p : String → Bool} {s t : List String}
    (hsub : ∀ x ∈ t, x ∈ s) (h : s.any p = false) : t.any p = false := by
  rw [List.any_eq_false] at h ⊢
  intro x hx
  exact h x (hsub x hx)

/-- C10: marking the same (date, entity) pending twice is the same as marking
it once, and a single removal after a double mark leaves no key that starts
with the date (assuming no other key for that date was pending), so
`hasAnyPendingForDate` is false again. -/
theorem pending_set_not_counter (p : List String) (d : String) (i : Option String)
    (h : hasAnyPendingForDate p d = false) :
    markTogglePending (markTogglePending p d i) d i = markTogglePending p d i ∧
    hasAnyPendingForDate
      (removeTogglePending (markTogglePending (markTogglePending p d i) d i) d i)
      d = false := by
  constructor
  · exact setAdd_idem p (toggleKey d i)
  · unfold markTogglePending
    rw [setAdd_idem p (toggleKey d i)]
    apply any_of_sublist_false _ h
    intro x hx
    unfold removeTogglePending at hx
    have hx' := List.mem_filter.mp hx
    have hxne : x ≠ toggleKey d i := by
      have hx2 := hx'.2
      simpa using hx2
    have hx1 := hx'.1
    unfold setAdd at hx1
    by_cases hc : setHas p (toggleKey d i) = true
    · rw [if_pos hc] at hx1
      exact hx1
    · rw [if_neg hc] at hx1
      rcases List.mem_append.mp hx1 with hm | hm
      · exact hm
      · simp only [List.mem_singleton] at hm
        exact absurd hm hxne

/-- Witness for C10 at a concrete input: no key for `2024-03-04` is pending
in the empty set, and after mark-mark-remove of `(2024-03-04, h1)` nothing is
pending for that date. -/
theorem pending_set_not_counter_witness :
    hasAnyPendingForDate ([] : List String) "2024-03-04" = false ∧
    markTogglePending (markTogglePending [] "2024-03-04" (some "h1")) "2024-03-04"
        (some "h1") = markTogglePending [] "2024-03-04" (some "h1") ∧
    hasAnyPendingForDate
      (removeTogglePending
        (markTogglePending (markTogglePending [] "2024-03-04" (some "h1"))
          "2024-03-04" (some "h1")) "2024-03-04" (some "h1")) "2024-03-04" = false := by
  refine ⟨by decide, ?_⟩
  have h := pending_set_not_counter [] "2024-03-04" (some "h1") (by decide)
  exact ⟨h.1, h.2⟩

/-! ## Day-keyed JS `Map`

`loadDailyStats` builds a `new Map()` keyed by normalized date strings.
`Map.set` replaces the value in place when the key exists (keeping the
original insertion position) and appends otherwise; `Array.from(map.values())`
lists the values in insertion order. -/

/-- JS `map.get(k)` on an insertion-ordered association list. -/
def dayMapGet : List (String × DayStat) → String → Option DayStat
  | [], _ => none
  | (a, v) :: rest, k => if a = k then some v else dayMapGet rest k

/-- JS `map.set(k, v)`. -/
def dayMapSet : List (String × DayStat) → String → DayStat → List (String × DayStat)
  | [], k, v => [(k, v)]
  | (a, w) :: rest, k, v =>
    if a = k then (a, v) :: rest else (a, w) :: dayMapSet rest k v

/-! ## The merge algorithm of `loadDailyStats` (`useTrackerData.js` 83–127)

`norm` stands for the string-level behaviour of `toISODateString`, the sole
date normalizer imported by the hook; the merge is proved for an arbitrary
normalizer. -/

/-- First phase: `serverData.forEach(day => merged.set(toISODateString(day.date),
{...day, date: dateKey}))`. -/
def serverMap (norm : String → String) (serverData : List DayStat) :
    List (String × DayStat) :=
  serverData.foldl (fun m day => dayMapSet m (norm day.date) (normalizeDay norm day)) []

/-- Second phase body: for one previously-held local record, overwrite when the
date has any pending toggle, keep server data when the date is present, and
otherwise insert the locally-created day. -/
def mergeStep (norm : String → String) (pending : List String)
    (m : List (String × DayStat)) (day : DayStat) : List (String × DayStat) :=
  let dateKey := norm day.date
  if hasAnyPendingForDate pending dateKey then
    dayMapSet m dateKey (normalizeDay norm day)
  else if (dayMapGet m dateKey).isSome then
    m
  else
    dayMapSet m dateKey (normalizeDay norm day)

/-- The merged map produced inside `setDailyStats` when `mergeWithOptimistic`
is true. -/
def mergeMap (norm : String → String) (pending : List String)
    (serverData prevStats : List DayStat) : List (String × DayStat) :=
  prevStats.foldl (mergeStep norm pending) (serverMap norm serverData)

/-- Listing `Array.from(merged.values())`: the new day collection in merge mode. -/
def mergeDailyStats (norm : String → String) (pending : List String)
    (serverData prevStats : List DayStat) : List DayStat :=
  (mergeMap norm pending serverData prevStats).map (fun p => p.2)

/-- Replacement mode (`mergeWithOptimistic = false`):
`serverData.map(day => ({...day, date: toISODateString(day.date)}))`. -/
def replaceDailyStats (norm : String → String) (serverData : List DayStat) :
    List DayStat :=
  serverData.map (normalizeDay norm)

/-! ### Association-list lemmas for the merge proof -/

theorem dayMapGet_set_same (m : List (String × DayStat)) (k : String) (v : DayStat) :
    dayMapGet (dayMapSet m k v) k = some v := by
  induction m with
  | nil => simp [dayMapSet, dayMapGet]
  | cons p rest ih =>
    by_cases h : p.1 = k
    · simp [dayMapSet, dayMapGet, h]
    · simp [dayMapSet, dayMapGet, h, ih]

theorem dayMapGet_set_other (m : List (String × DayStat)) (k k' : String) (v : DayStat)
    (h : k ≠ k') : dayMapGet (dayMapSet m k v) k' = dayMapGet m k' := by
  induction m with
  | nil => simp [dayMapSet, dayMapGet, h]
  | cons p rest ih =>
    obtain ⟨a, w⟩ := p
    by_cases hp : a = k
    · subst hp
      simp only [dayMapSet, if_pos rfl, dayMapGet]
      rw [if_neg h, if_neg h]
    · simp only [dayMapSet, if_neg hp, dayMapGet]
      by_cases hp' : a = k'
      · rw [if_pos hp', if_pos hp']
      · rw [if_neg hp', if_neg hp']
        exact ih

theorem dayMapGet_mergeStep_other (norm : String → String) (pending : List String)
    (m : List (String × DayStat)) (day : DayStat) (k : String)
    (h : norm day.date ≠ k) :
    dayMapGet (mergeStep norm pending m day) k = dayMapGet m k := by
  unfold mergeStep
  by_cases h1 : hasAnyPendingForDate pending (norm day.date) = true
  · rw [if_pos h1]
    exact dayMapGet_set_other m (norm day.date) k (normalizeDay norm day) h
  · rw [if_neg h1]
    by_cases h2 : (dayMapGet m (norm day.date)).isSome = true
    · rw [if_pos h2]
    · rw [if_neg h2]
      exact dayMapGet_set_other m (norm day.date) k (normalizeDay norm day) h

theorem dayMapGet_mergeStep_self (norm : String → String) (pending : List String)
    (m : List (String × DayStat)) (day : DayStat) :
    dayMapGet (mergeStep norm pending m day) (norm day.date) =
      if hasAnyPendingForDate pending (norm day.date) = true then
        some (normalizeDay norm day)
      else if (dayMapGet m (norm day.date)).isSome = true then
        dayMapGet m (norm day.date)
      else
        some (normalizeDay norm day) := by
  unfold mergeStep
  by_cases h1 : hasAnyPendingForDate pending (norm day.date) = true
  · rw [if_pos h1, if_pos h1]
    exact dayMapGet_set_same m (norm day.date) (normalizeDay norm day)
  · rw [if_neg h1, if_neg h1]
    by_cases h2 : (dayMapGet m (norm day.date)).isSome = true
    · rw [if_pos h2, if_pos h2]
    · rw [if_neg h2, if_neg h2]
      exact dayMapGet_set_same m (norm day.date) (normalizeDay norm day)

theorem dayMapGet_foldl_other (norm : String → String) (pending : List String)
    (days : List DayStat) (k : String) :
    ∀ m : List (String × DayStat), (∀ d ∈ days, norm d.date ≠ k) →
      dayMapGet (days.foldl (mergeStep norm pending) m) k = dayMapGet m k := by
  induction days with
  | nil => intro m _; rfl
  | cons d rest ih =>
    intro m hall
    rw [List.foldl_cons]
    rw [ih (mergeStep norm pending m d) (fun x hx => hall x (List.mem_cons_of_mem d hx))]
    exact dayMapGet_mergeStep_other norm pending m d k (hall d (List.mem_cons_self d rest))

theorem dayMapGet_mem (m : List (String × DayStat)) (k : String) (v : DayStat)
    (h : dayMapGet m k = some v) : (k, v) ∈ m := by
  induction m with
  | nil => simp [dayMapGet] at h
  | cons p rest ih =>
    obtain ⟨a, w⟩ := p
    by_cases hp : a = k
    · subst hp
      simp only [dayMapGet, if_pos rfl] at h
      injection h with h
      subst h
      exact List.mem_cons_self _ _
    · simp only [dayMapGet, if_neg hp] at h
      exact List.mem_cons_of_mem _ (ih h)

/-! ## Claim C1 : the merge algorithm -/

/-- C1: in merge mode, for each locally-held record `l` with normalized date
key `k` (dates pairwise distinct after normalization), the merged collection
maps `k` to the local record exactly when some pending key for `k` exists or
`k` is absent from the normalized server result, and to the server value
otherwise; in particular a pending date keeps the full local record, its
entity statuses untouched. -/
theorem mergeDailyStats_pending_law (norm : String → String) (pending : List String)
    (serverData prevStats : List DayStat)
    (hdistinct : prevStats.Pairwise (fun a b => norm a.date ≠ norm b.date))
    (l : DayStat) (hl : l ∈ prevStats) :
    (dayMapGet (mergeMap norm pending serverData prevStats) (norm l.date) =
      if hasAnyPendingForDate pending (norm l.date) = true then
        some (normalizeDay norm l)
      else
        match dayMapGet (serverMap norm serverData) (norm l.date) with
        | some v => some v
        | none => some (normalizeDay norm l)) ∧
    (hasAnyPendingForDate pending (norm l.date) = true →
      normalizeDay norm l ∈ mergeDailyStats norm pending serverData prevStats ∧
      (normalizeDay norm l).statuses = l.statuses) := by
  obtain ⟨L1, L2, hsplit⟩ := List.append_of_mem hl
  subst hsplit
  set k := norm l.date with hk
  have hpw := hdistinct
  rw [List.pairwise_append] at hpw
  have hL1 : ∀ d ∈ L1, norm d.date ≠ k := by
    intro d hd
    exact fun hcon => (hpw.2.2 d hd l (List.mem_cons_self l L2) (by rw [hcon])).elim
  have hL2 : ∀ d ∈ L2, norm d.date ≠ k := by
    have hcons := hpw.2.1
    rw [List.pairwise_cons] at hcons
    intro d hd hcon
    exact hcons.1 d hd hcon.symm
  have hmain :
      dayMapGet (mergeMap norm pending serverData (L1 ++ l :: L2)) k =
        if hasAnyPendingForDate pending k = true then some (normalizeDay norm l)
        else match dayMapGet (serverMap norm serverData) k with
          | some v => some v
          | none => some (normalizeDay norm l) := by
    unfold mergeMap
    rw [List.foldl_append, List.foldl_cons]
    rw [dayMapGet_foldl_other norm pending L2 k _ hL2]
    have hbase :
        dayMapGet (L1.foldl (mergeStep norm pending) (serverMap norm serverData)) k =
          dayMapGet (serverMap norm serverData) k :=
      dayMapGet_foldl_other norm pending L1 k (serverMap norm serverData) hL1
    rw [hk, dayMapGet_mergeStep_self norm pending _ l, ← hk, hbase]
    by_cases h1 : hasAnyPendingForDate pending k = true
    · rw [if_pos h1, if_pos h1]
    · rw [if_neg h1, if_neg h1]
      cases hs : dayMapGet (serverMap norm serverData) k with
      | some v =>
        rw [if_pos (by rfl)]
      | none =>
        rw [if_neg (by simp)]
  refine ⟨hmain, fun hp => ⟨?_, rfl⟩⟩
  have hget : dayMapGet (mergeMap norm pending serverData (L1 ++ l :: L2)) k =
      some (normalizeDay norm l) := by
    rw [hmain, if_pos hp]
  have hmem := dayMapGet_mem _ k (normalizeDay norm l) hget
  unfold mergeDailyStats
  exact List.mem_map.mpr ⟨(k, normalizeDay norm l), hmem, rfl⟩

/-- Witness for C1 at the spec scenario: the server returns day `2024-03-03`
with only `h1` done, the pending set holds `2024-03-03-h1`, and the local
optimistic record has both `h1` and `h2`; the merge keeps the local record. -/
theorem mergeDailyStats_pending_law_witness :
    dayMapGet
        (mergeMap (fun s => s) ["2024-03-03-h1"]
          [⟨"2024-03-03", [("h1", true)], 50⟩]
          [⟨"2024-03-03", [("h1", true), ("h2", true)], 100⟩])
        "2024-03-03" = some ⟨"2024-03-03", [("h1", true), ("h2", true)], 100⟩ ∧
    (⟨"2024-03-03", [("h1", true), ("h2", true)], 100⟩ : DayStat) ∈
      mergeDailyStats (fun s => s) ["2024-03-03-h1"]
        [⟨"2024-03-03", [("h1", true)], 50⟩]
        [⟨"2024-03-03", [("h1", true), ("h2", true)], 100⟩] := by
  have h := mergeDailyStats_pending_law (fun s => s) ["2024-03-03-h1"]
    [⟨"2024-03-03", [("h1", true)], 50⟩]
    [⟨"2024-03-03", [("h1", true), ("h2", true)], 100⟩]
    (by simp)
    ⟨"2024-03-03", [("h1", true), ("h2", true)], 100⟩ (by simp)
  refine ⟨?_, (h.2 (by decide)).1⟩
  have h1 := h.1
  rw [h1]
  decide

/-! ## Optimistic toggle (`useOptimisticToggle.js` 30–92, `HabitTracker.jsx` 136–165)

The hook receives the caller-supplied pure callbacks `updateStats` and
`createNewDayStat`; the habit tracker instances are embedded below.  The
`value` argument models the optional explicit boolean of the prayer variant
(`undefined`, i.e. `none`, for habits). -/

/-- Positive JS `Math.round((c / t) * 100)` as exact rational
round-half-up; all percentages in the trackers stay in ranges where the
float computation matches the exact one. -/
def jsRound100 (c t : Nat) : Nat := (200 * c + t) / (2 * t)

/-- The `updateStats` callback of `HabitTracker.jsx`: copy the statuses
object, flip the flag read as `newHabitStatuses[habitId] || false`, and
recompute the percentage from the completed count. -/
def habitUpdateStats (totalHabits : Nat) (dayStat : DayStat) (habitId : String)
    (value : Option Bool) : DayStat :=
  let wasCompleted := statusGet dayStat.statuses habitId
  let newStatuses := statusSet dayStat.statuses habitId (!wasCompleted)
  let completedCount := (newStatuses.filter (fun p => p.2)).length
  let percentage := if totalHabits > 0 then jsRound100 completedCount totalHabits else 0
  { dayStat with statuses := newStatuses, percentage := percentage }

/-- The `createNewDayStat` callback of `HabitTracker.jsx`. -/
def habitCreateNewDayStat (totalHabits : Nat) (habitId : String) (value : Option Bool)
    (dateStr : String) : DayStat :=
  { date := dateStr,
    statuses := [(habitId, true)],
    percentage := if totalHabits > 0 then jsRound100 1 totalHabits else 0 }

/-- Functional update passed to `setDailyStats` inside `handleToggle`
(`useOptimisticToggle.js` 40–56): find the entry whose normalized date equals
`dateStr`; update it in place if found, else insert the synthesized day and
re-sort by date (`[...prev, newDayStat].sort((a, b) =>
a.date.localeCompare(b.date))`). -/
def applyOptimistic (norm : String → String)
    (upd : DayStat → String → Option Bool → DayStat)
    (create : String → Option Bool → String → DayStat)
    (prev : List DayStat) (id : String) (dateStr : String) (value : Option Bool) :
    List DayStat :=
  match prev.findIdx? (fun d => norm d.date == dateStr) with
  | some i => prev.mapIdx (fun j d => if j = i then upd d id value else d)
  | none =>
    (prev ++ [create id value dateStr]).mergeSort (fun a b => dateLe a.date b.date)

/-! ### A recursion-friendly form of the found-branch -/

/-- Replace the first element satisfying `p` by its `f`-image, or report that
none matches. -/
def updateFirstMatch (p : DayStat → Bool) (f : DayStat → DayStat) :
    List DayStat → Option (List DayStat)
  | [] => none
  | d :: rest =>
    if p d then some (f d :: rest)
    else (updateFirstMatch p f rest).map (fun l => d :: l)

theorem mapIdx_congr_of_ptwise (f g : Nat → DayStat → DayStat) :
    ∀ l : List DayStat, (∀ j d, f j d = g j d) → l.mapIdx f = l.mapIdx g := by
  intro l
  induction l generalizing f g with
  | nil => intro _; rfl
  | cons d rest ih =>
    intro h
    rw [List.mapIdx_cons, List.mapIdx_cons, h 0 d]
    rw [ih (fun i => f (i + 1)) (fun i => g (i + 1)) (fun j d => h (j + 1) d)]

theorem mapIdx_id_of_const (l : List DayStat) :
    l.mapIdx (fun _ d => d) = l := by
  induction l with
  | nil => rfl
  | cons d rest ih =>
    rw [List.mapIdx_cons]
    exact congrArg (d :: ·) ih

theorem updateFirstMatch_of_findIdx?_none (p : DayStat → Bool)
    (f : DayStat → DayStat) :
    ∀ l : List DayStat, l.findIdx? p = none → updateFirstMatch p f l = none := by
  intro l
  induction l with
  | nil => intro _; rfl
  | cons d rest ih =>
    intro h
    rw [List.findIdx?_cons] at h
    by_cases hp : p d = true
    · rw [if_pos hp] at h
      exact absurd h (by simp)
    · rw [if_neg hp, List.findIdx?_succ] at h
      have hrest : rest.findIdx? p = none := by
        cases hr : rest.findIdx? p with
        | none => rfl
        | some i => rw [hr] at h; exact absurd h (by simp)
      unfold updateFirstMatch
      rw [if_neg hp, ih hrest]
      rfl

theorem updateFirstMatch_of_findIdx?_some (p : DayStat → Bool)
    (f : DayStat → DayStat) :
    ∀ (l : List DayStat) (i : Nat), l.findIdx? p = some i →
      updateFirstMatch p f l =
        some (l.mapIdx (fun j d => if j = i then f d else d)) := by
  intro l
  induction l with
  | nil => intro i h; exact absurd h (by simp [List.findIdx?])
  | cons d rest ih =>
    intro i h
    rw [List.findIdx?_cons] at h
    by_cases hp : p d = true
    · rw [if_pos hp] at h
      injection h with h
      subst h
      unfold updateFirstMatch
      rw [if_pos hp, List.mapIdx_cons, if_pos rfl]
      have h0 : rest.mapIdx (fun j x => if j + 1 = 0 then f x else x) = rest := by
        rw [mapIdx_congr_of_ptwise _ (fun _ x => x) rest (by intro j x; simp)]
        exact mapIdx_id_of_const rest
      rw [h0]
    · rw [if_neg hp, List.findIdx?_succ] at h
      cases hr : rest.findIdx? p with
      | none => rw [hr] at h; exact absurd h (by simp)
      | some i0 =>
        rw [hr] at h
        simp only [Option.map] at h
        injection h with h
        subst h
        unfold updateFirstMatch
        rw [if_neg hp, ih i0 hr, List.mapIdx_cons, if_neg (by omega : ¬ (0 = i0 + 1))]
        have hcg : rest.mapIdx (fun j x => if j + 1 = i0 + 1 then f x else x) =
            rest.mapIdx (fun j x => if j = i0 then f x else x) := by
          apply mapIdx_congr_of_ptwise
          intro j x
          by_cases hj : j = i0
          · rw [if_pos (by omega), if_pos hj]
          · rw [if_neg (by omega), if_neg hj]
        rw [hcg]
        rfl

/-- The found/absent dichotomy of the optimistic update, stated through
`updateFirstMatch`. -/
theorem applyOptimistic_eq (norm : String → String)
    (upd : DayStat → String → Option Bool → DayStat)
    (create : String → Option Bool → String → DayStat)
    (prev : List DayStat) (id dateStr : String) (value : Option Bool) :
    applyOptimistic norm upd create prev id dateStr value =
      match updateFirstMatch (fun d => norm d.date == dateStr)
          (fun d => upd d id value) prev with
      | some l => l
      | none =>
        (prev ++ [create id value dateStr]).mergeSort (fun a b => dateLe a.date b.date) := by
  unfold applyOptimistic
  cases hf : prev.findIdx? (fun d => norm d.date == dateStr) with
  | none =>
    rw [updateFirstMatch_of_findIdx?_none _ _ prev hf]
  | some i =>
    rw [updateFirstMatch_of_findIdx?_some _ _ prev i hf]

/-- Rewriting form of the found branch. -/
theorem applyOptimistic_some (norm : String → String)
    (upd : DayStat → String → Option Bool → DayStat)
    (create : String → Option Bool → String → DayStat)
    (prev : List DayStat) (id dateStr : String) (value : Option Bool)
    (l : List DayStat)
    (h : updateFirstMatch (fun d => norm d.date == dateStr)
        (fun d => upd d id value) prev = some l) :
    applyOptimistic norm upd create prev id dateStr value = l := by
  rw [applyOptimistic_eq, h]

/-- Rewriting form of the absent branch. -/
theorem applyOptimistic_none (norm : String → String)
    (upd : DayStat → String → Option Bool → DayStat)
    (create : String → Option Bool → String → DayStat)
    (prev : List DayStat) (id dateStr : String) (value : Option Bool)
    (h : updateFirstMatch (fun d => norm d.date == dateStr)
        (fun d => upd d id value) prev = none) :
    applyOptimistic norm upd create prev id dateStr value =
      (prev ++ [create id value dateStr]).mergeSort (fun a b => dateLe a.date b.date) := by
  rw [applyOptimistic_eq, h]

/-! ## The toggle controller state (`useOptimisticToggle.js` 30–92)

`errorMsg` is the `error` state owned by `useTrackerData` (the error string
the hook exposes to the presentation layer); `handlerLog` records the calls
made to the injected `onError` callback.  The hook receives no `setError`,
so the failure path can only call `onError` — the message it returns is
computed into the local `errorMessage` variable and then discarded. -/
structure TrackerState where
  dailyStats : List DayStat
  pending : List String
  errorMsg : Option String
  handlerLog : List String
  deriving Repr, DecidableEq

/-- One full run of `handleToggle(id, dateStr, value)` whose background write
settles with `writeSucceeds`.  The success branch shows the state after the
deferred (350 ms) pending clear has run; the scheduler interaction is
modelled separately in the timed section below.  The failure branch is
`useOptimisticToggle.js` lines 81–91: compute the handler message, clear the
pending mark immediately, and restore the snapshot taken at entry. -/
def handleToggleRun (norm : String → String)
    (upd : DayStat → String → Option Bool → DayStat)
    (create : String → Option Bool → String → DayStat)
    (s : TrackerState) (id dateStr : String) (value : Option Bool)
    (writeSucceeds : Bool) (failMsg : String) : TrackerState :=
  let previousStats := s.dailyStats
  let pending1 := markTogglePending s.pending dateStr (some id)
  let stats1 := applyOptimistic norm upd create s.dailyStats id dateStr value
  if writeSucceeds then
    { dailyStats := stats1,
      pending := removeTogglePending pending1 dateStr (some id),
      errorMsg := s.errorMsg,
      handlerLog := s.handlerLog }
  else
    { dailyStats := previousStats,
      pending := removeTogglePending pending1 dateStr (some id),
      errorMsg := s.errorMsg,
      handlerLog := s.handlerLog ++ [failMsg] }

/-! ## Claim C5 : rollback on write failure -/

theorem filter_setAdd_self (p : List String) (k : String) :
    (setAdd p k).filter (fun x => x != k) = p.filter (fun x => x != k) := by
  by_cases hc : setHas p k = true
  · unfold setAdd
    rw [if_pos hc]
  · unfold setAdd
    rw [if_neg hc, List.filter_append]
    have : [k].filter (fun x => x != k) = [] := by simp
    rw [this, List.append_nil]

/-- C5 counterexample: a failed habit toggle at a concrete state rolls the
collection back and logs through the injected handler, but the user-facing
error string stays `none` — no error is surfaced to the UI, contrary to the
claim. -/
theorem toggle_failure_no_error_surfaced :
    (handleToggleRun (fun s => s) (habitUpdateStats 1) (habitCreateNewDayStat 1)
        ⟨[⟨"2024-03-04", [("h1", false)], 0⟩], [], none, []⟩
        "h1" "2024-03-04" none false "Failed to toggle habit. Please try again.").errorMsg
      = none ∧
    (handleToggleRun (fun s => s) (habitUpdateStats 1) (habitCreateNewDayStat 1)
        ⟨[⟨"2024-03-04", [("h1", false)], 0⟩], [], none, []⟩
        "h1" "2024-03-04" none false "Failed to toggle habit. Please try again.").dailyStats
      = [⟨"2024-03-04", [("h1", false)], 0⟩] := by
  constructor
  · rfl
  · rfl

/-- C5 as amended: on write failure the day-collection is restored to the
pre-toggle snapshot, the pending mark is removed (the only pending-set
difference from the pre-toggle state), the failure is reported to the
injected `onError` handler, and the exposed error string is left unchanged —
no user-facing error state is set. -/
theorem toggle_failure_rollback (norm : String → String)
    (upd : DayStat → String → Option Bool → DayStat)
    (create : String → Option Bool → String → DayStat)
    (s : TrackerState) (id dateStr : String) (value : Option Bool) (failMsg : String) :
    (handleToggleRun norm upd create s id dateStr value false failMsg).dailyStats
        = s.dailyStats ∧
    (handleToggleRun norm upd create s id dateStr value false failMsg).pending
        = s.pending.filter (fun x => x != toggleKey dateStr (some id)) ∧
    (handleToggleRun norm upd create s id dateStr value false failMsg).errorMsg
        = s.errorMsg ∧
    (handleToggleRun norm upd create s id dateStr value false failMsg).handlerLog
        = s.handlerLog ++ [failMsg] := by
  refine ⟨rfl, ?_, rfl, rfl⟩
  show removeTogglePending (markTogglePending s.pending dateStr (some id)) dateStr (some id)
      = s.pending.filter (fun x => x != toggleKey dateStr (some id))
  unfold removeTogglePending markTogglePending
  exact filter_setAdd_self s.pending (toggleKey dateStr (some id))

/-! ## Claim C6 : toggling twice restores the flag -/

/-- Reading of DayStat `dateStr`'s entity flag from the day-collection:
first record whose normalized date matches, absent key or absent day means
"not done". -/
def dayFlag (norm : String → String) (stats : List DayStat) (dateStr id : String) : Bool :=
  match stats.find? (fun d => norm d.date == dateStr) with
  | some d => statusGet d.statuses id
  | none => false

theorem statusGet_set_same (s : List (String × Bool)) (k : String) (b : Bool) :
    statusGet (statusSet s k b) k = b := by
  induction s with
  | nil => simp [statusSet, statusGet]
  | cons p rest ih =>
    obtain ⟨a, v⟩ := p
    by_cases hp : a = k
    · simp [statusSet, statusGet, hp]
    · simp only [statusSet, if_neg hp, statusGet]
      exact ih

theorem habitUpdateStats_date (t : Nat) (d : DayStat) (i : String) (v : Option Bool) :
    (habitUpdateStats t d i v).date = d.date := rfl

theorem habitUpdateStats_flag (t : Nat) (d : DayStat) (i : String) (v : Option Bool) :
    statusGet (habitUpdateStats t d i v).statuses i = !(statusGet d.statuses i) := by
  unfold habitUpdateStats
  exact statusGet_set_same d.statuses i (!(statusGet d.statuses i))

theorem updateFirstMatch_flag (p : DayStat → Bool) (f : DayStat → DayStat)
    (hpf : ∀ d, p (f d) = p d) :
    ∀ (l : List DayStat) (d0 : DayStat), l.find? p = some d0 →
      ∃ l1, updateFirstMatch p f l = some l1 ∧ l1.find? p = some (f d0) := by
  intro l
  induction l with
  | nil => intro d0 h; exact absurd h (by simp)
  | cons d rest ih =>
    intro d0 h
    rw [List.find?_cons] at h
    by_cases hp : p d = true
    · rw [hp] at h
      injection h with h
      subst h
      refine ⟨f d :: rest, ?_, ?_⟩
      · unfold updateFirstMatch
        rw [if_pos hp]
      · rw [List.find?_cons]
        have : p (f d) = true := by rw [hpf]; exact hp
        rw [this]
    · have hp' : p d = false := by
        cases hpd : p d with
        | true => exact absurd hpd hp
        | false => rfl
      rw [hp'] at h
      obtain ⟨l1, hl1, hfind⟩ := ih d0 h
      refine ⟨d :: l1, ?_, ?_⟩
      · unfold updateFirstMatch
        rw [if_neg hp, hl1]
        rfl
      · rw [List.find?_cons, hp']
        exact hfind

theorem updateFirstMatch_unique (p : DayStat → Bool) (f : DayStat → DayStat)
    (u : DayStat) (hu : p u = true) (hfu : p (f u) = true) :
    ∀ l : List DayStat, u ∈ l → (∀ y ∈ l, p y = true → y = u) →
      ∃ l2, updateFirstMatch p f l = some l2 ∧ l2.find? p = some (f u) := by
  intro l
  induction l with
  | nil => intro h; exact absurd h (List.not_mem_nil u)
  | cons d rest ih =>
    intro hmem huniq
    by_cases hp : p d = true
    · have hd : d = u := huniq d (List.mem_cons_self d rest) hp
      subst hd
      refine ⟨f d :: rest, ?_, ?_⟩
      · unfold updateFirstMatch
        rw [if_pos hp]
      · rw [List.find?_cons, hfu]
    · have hp' : p d = false := by
        cases hpd : p d with
        | true => exact absurd hpd hp
        | false => rfl
      have humem : u ∈ rest := by
        rcases List.mem_cons.mp hmem with h | h
        · subst h
          exact absurd hu hp
        · exact h
      obtain ⟨l2, hl2, hfind⟩ :=
        ih humem (fun y hy hpy => huniq y (List.mem_cons_of_mem d hy) hpy)
      refine ⟨d :: l2, ?_, ?_⟩
      · unfold updateFirstMatch
        rw [if_neg hp, hl2]
        rfl
      · rw [List.find?_cons, hp']
        exact hfind

theorem updateFirstMatch_none_of_forall (p : DayStat → Bool) (f : DayStat → DayStat) :
    ∀ l : List DayStat, (∀ d ∈ l, ¬ p d = true) → updateFirstMatch p f l = none := by
  intro l
  induction l with
  | nil => intro _; rfl
  | cons d rest ih =>
    intro h
    unfold updateFirstMatch
    rw [if_neg (h d (List.mem_cons_self d rest)),
      ih (fun x hx => h x (List.mem_cons_of_mem d hx))]
    rfl

/-- C6: applying the optimistic habit toggle update twice for the same
(date, entity) pair returns the entity's boolean done-flag in the
day-collection to its original value (absent day or absent key reads as
false), provided `dateStr` is a normalized day key. -/
theorem toggle_twice_restores_flag (norm : String → String) (total : Nat)
    (stats : List DayStat) (id dateStr : String) (value : Option Bool)
    (hfix : norm dateStr = dateStr) :
    dayFlag norm
      (applyOptimistic norm (habitUpdateStats total) (habitCreateNewDayStat total)
        (applyOptimistic norm (habitUpdateStats total) (habitCreateNewDayStat total)
          stats id dateStr value) id dateStr value)
      dateStr id = dayFlag norm stats dateStr id := by
  have hpres : ∀ d : DayStat,
      (fun d : DayStat => norm d.date == dateStr) (habitUpdateStats total d id value) =
        (fun d : DayStat => norm d.date == dateStr) d := fun d => rfl
  cases hfind : stats.find? (fun d => norm d.date == dateStr) with
  | some d0 =>
    obtain ⟨l1, hl1, hfind1⟩ :=
      updateFirstMatch_flag (fun d => norm d.date == dateStr)
        (fun d => habitUpdateStats total d id value) hpres stats d0 hfind
    obtain ⟨l2, hl2, hfind2⟩ :=
      updateFirstMatch_flag (fun d => norm d.date == dateStr)
        (fun d => habitUpdateStats total d id value) hpres l1
        (habitUpdateStats total d0 id value) hfind1
    rw [applyOptimistic_some norm _ _ stats id dateStr value l1 hl1,
      applyOptimistic_some norm _ _ l1 id dateStr value l2 hl2]
    unfold dayFlag
    rw [hfind2, hfind]
    show statusGet (habitUpdateStats total (habitUpdateStats total d0 id value)
        id value).statuses id = statusGet d0.statuses id
    rw [habitUpdateStats_flag, habitUpdateStats_flag, Bool.not_not]
  | none =>
    have hnone : ∀ d ∈ stats, ¬ (fun d : DayStat => norm d.date == dateStr) d = true :=
      List.find?_eq_none.mp hfind
    rw [applyOptimistic_none norm (habitUpdateStats total) (habitCreateNewDayStat total)
      stats id dateStr value (updateFirstMatch_none_of_forall _ _ stats hnone)]
    set newD := habitCreateNewDayStat total id value dateStr with hnewD
    have hpnew : (fun d : DayStat => norm d.date == dateStr) newD = true := by
      show (norm newD.date == dateStr) = true
      have : newD.date = dateStr := rfl
      rw [this, hfix]
      simp
    have hperm := List.mergeSort_perm (stats ++ [newD])
      (fun a b : DayStat => dateLe a.date b.date)
    have hmem : newD ∈ (stats ++ [newD]).mergeSort (fun a b => dateLe a.date b.date) :=
      hperm.mem_iff.mpr (List.mem_append.mpr (Or.inr (List.mem_singleton.mpr rfl)))
    have huniq : ∀ y ∈ (stats ++ [newD]).mergeSort (fun a b => dateLe a.date b.date),
        (fun d : DayStat => norm d.date == dateStr) y = true → y = newD := by
      intro y hy hpy
      rcases List.mem_append.mp (hperm.mem_iff.mp hy) with h | h
      · exact absurd hpy (hnone y h)
      · exact List.mem_singleton.mp h
    obtain ⟨l2, hl2, hfind2⟩ :=
      updateFirstMatch_unique (fun d => norm d.date == dateStr)
        (fun d => habitUpdateStats total d id value) newD hpnew
        (by rw [hpres]; exact hpnew) _ hmem huniq
    rw [applyOptimistic_some norm _ _ _ id dateStr value l2 hl2]
    unfold dayFlag
    rw [hfind2, hfind]
    show statusGet (habitUpdateStats total newD id value).statuses id = false
    rw [habitUpdateStats_flag]
    have hv : statusGet newD.statuses id = true := by
      show statusGet [(id, true)] id = true
      simp [statusGet]
    rw [hv]
    rfl

/-- Witness for C6 at a concrete input: habit `h1` of day `2024-03-04`
starts done; after two optimistic toggles the flag is done again. -/
theorem toggle_twice_restores_flag_witness :
    dayFlag (fun s => s)
      (applyOptimistic (fun s => s) (habitUpdateStats 1) (habitCreateNewDayStat 1)
        (applyOptimistic (fun s => s) (habitUpdateStats 1) (habitCreateNewDayStat 1)
          [⟨"2024-03-04", [("h1", true)], 100⟩] "h1" "2024-03-04" none)
        "h1" "2024-03-04" none)
      "2024-03-04" "h1" = dayFlag (fun s => s)
        [⟨"2024-03-04", [("h1", true)], 100⟩] "2024-03-04" "h1" ∧
    dayFlag (fun s => s) [⟨"2024-03-04", [("h1", true)], 100⟩] "2024-03-04" "h1" = true :=
  ⟨toggle_twice_restores_flag (fun s => s) 1
      [⟨"2024-03-04", [("h1", true)], 100⟩] "h1" "2024-03-04" none rfl,
    by decide⟩

/-! ## Claim C7 : at most one `DayStat` per date -/

/-- Uniqueness of dates within a day collection. -/
def datesNodup (l : List DayStat) : Prop := (l.map (fun d => d.date)).Nodup

/-- Well-formedness of the merge map: duplicate-free keys, and every stored
record carries its own key as date. -/
def mapWf (m : List (String × DayStat)) : Prop :=
  (m.map (fun p => p.1)).Nodup ∧ ∀ q ∈ m, q.2.date = q.1

theorem dayMapGet_none_not_mem (m : List (String × DayStat)) (k : String)
    (h : dayMapGet m k = none) : k ∉ m.map (fun p => p.1) := by
  induction m with
  | nil => simp
  | cons p rest ih =>
    obtain ⟨a, w⟩ := p
    by_cases hp : a = k
    · rw [dayMapGet] at h
      rw [if_pos hp] at h
      exact absurd h (by simp)
    · rw [dayMapGet] at h
      rw [if_neg hp] at h
      simp only [List.map_cons, List.mem_cons]
      intro hc
      rcases hc with hc | hc
      · exact hp hc.symm
      · exact ih h hc

theorem dayMapSet_keys (m : List (String × DayStat)) (k : String) (v : DayStat) :
    (dayMapSet m k v).map (fun p => p.1) =
      if (dayMapGet m k).isSome then m.map (fun p => p.1)
      else m.map (fun p => p.1) ++ [k] := by
  induction m with
  | nil => simp [dayMapSet, dayMapGet]
  | cons p rest ih =>
    obtain ⟨a, w⟩ := p
    by_cases hp : a = k
    · simp only [dayMapSet, if_pos hp, dayMapGet, List.map_cons]
      rw [if_pos (by simp)]
    · simp only [dayMapSet, if_neg hp, dayMapGet, List.map_cons, ih]
      by_cases hs : (dayMapGet rest k).isSome = true
      · rw [if_pos hs, if_pos hs]
      · rw [if_neg hs, if_neg hs, List.cons_append]

theorem dayMapSet_mem (m : List (String × DayStat)) (k : String) (v : DayStat)
    (q : String × DayStat) (h : q ∈ dayMapSet m k v) : q = (k, v) ∨ q ∈ m := by
  induction m with
  | nil =>
    simp only [dayMapSet, List.mem_singleton] at h
    exact Or.inl h
  | cons p rest ih =>
    obtain ⟨a, w⟩ := p
    by_cases hp : a = k
    · simp only [dayMapSet, if_pos hp, List.mem_cons] at h
      rcases h with h | h
      · rw [hp] at h
        exact Or.inl h
      · exact Or.inr (List.mem_cons_of_mem _ h)
    · simp only [dayMapSet, if_neg hp, List.mem_cons] at h
      rcases h with h | h
      · exact Or.inr (List.mem_cons.mpr (Or.inl h))
      · rcases ih h with h2 | h2
        · exact Or.inl h2
        · exact Or.inr (List.mem_cons_of_mem _ h2)

theorem mapWf_set (m : List (String × DayStat)) (k : String) (v : DayStat)
    (hwf : mapWf m) (hd : v.date = k) : mapWf (dayMapSet m k v) := by
  constructor
  · rw [dayMapSet_keys]
    by_cases hs : (dayMapGet m k).isSome = true
    · rw [if_pos hs]
      exact hwf.1
    · rw [if_neg hs]
      have hget : dayMapGet m k = none := by
        cases hg : dayMapGet m k with
        | none => rfl
        | some w => rw [hg] at hs; exact absurd rfl hs
      have hnm : k ∉ m.map (fun p => p.1) := dayMapGet_none_not_mem m k hget
      have hperm := List.perm_append_singleton k (m.map (fun p => p.1))
      rw [hperm.nodup_iff, List.nodup_cons]
      exact ⟨hnm, hwf.1⟩
  · intro q hq
    rcases dayMapSet_mem m k v q hq with h | h
    · rw [h]
      exact hd
    · exact hwf.2 q h

theorem mapWf_serverMap (norm : String → String) (serverData : List DayStat) :
    mapWf (serverMap norm serverData) := by
  unfold serverMap
  have hgen : ∀ (days : List DayStat) (m : List (String × DayStat)), mapWf m →
      mapWf (days.foldl
        (fun m day => dayMapSet m (norm day.date) (normalizeDay norm day)) m) := by
    intro days
    induction days with
    | nil => intro m hm; exact hm
    | cons d rest ih =>
      intro m hm
      rw [List.foldl_cons]
      exact ih _ (mapWf_set m (norm d.date) (normalizeDay norm d) hm rfl)
  exact hgen serverData [] ⟨List.nodup_nil, by simp⟩

theorem mapWf_mergeMap (norm : String → String) (pending : List String)
    (serverData prevStats : List DayStat) :
    mapWf (mergeMap norm pending serverData prevStats) := by
  unfold mergeMap
  have hgen : ∀ (days : List DayStat) (m : List (String × DayStat)), mapWf m →
      mapWf (days.foldl (mergeStep norm pending) m) := by
    intro days
    induction days with
    | nil => intro m hm; exact hm
    | cons d rest ih =>
      intro m hm
      rw [List.foldl_cons]
      apply ih
      unfold mergeStep
      by_cases h1 : hasAnyPendingForDate pending (norm d.date) = true
      · rw [if_pos h1]
        exact mapWf_set m (norm d.date) (normalizeDay norm d) hm rfl
      · rw [if_neg h1]
        by_cases h2 : (dayMapGet m (norm d.date)).isSome = true
        · rw [if_pos h2]
          exact hm
        · rw [if_neg h2]
          exact mapWf_set m (norm d.date) (normalizeDay norm d) hm rfl
  exact hgen prevStats _ (mapWf_serverMap norm serverData)

theorem updateFirstMatch_map_date (p : DayStat → Bool) (f : DayStat → DayStat)
    (hf : ∀ d, (f d).date = d.date) :
    ∀ (l l' : List DayStat), updateFirstMatch p f l = some l' →
      l'.map (fun d => d.date) = l.map (fun d => d.date) := by
  intro l
  induction l with
  | nil => intro l' h; exact absurd h (by simp [updateFirstMatch])
  | cons d rest ih =>
    intro l' h
    unfold updateFirstMatch at h
    by_cases hp : p d = true
    · rw [if_pos hp] at h
      injection h with h
      subst h
      simp only [List.map_cons, hf d]
    · rw [if_neg hp] at h
      cases hr : updateFirstMatch p f rest with
      | none => rw [hr] at h; exact absurd h (by simp)
      | some lr =>
        rw [hr] at h
        simp only [Option.map] at h
        injection h with h
        subst h
        simp only [List.map_cons, ih lr hr]

theorem updateFirstMatch_none_forall (p : DayStat → Bool) (f : DayStat → DayStat) :
    ∀ l : List DayStat, updateFirstMatch p f l = none → ∀ d ∈ l, p d = false := by
  intro l
  induction l with
  | nil => intro _ d hd; exact absurd hd (List.not_mem_nil d)
  | cons d rest ih =>
    intro h x hx
    unfold updateFirstMatch at h
    by_cases hp : p d = true
    · rw [if_pos hp] at h
      exact absurd h (by simp)
    · rw [if_neg hp] at h
      rcases List.mem_cons.mp hx with hxd | hxr
      · subst hxd
        cases hpd : p x with
        | true => exact absurd hpd hp
        | false => rfl
      · cases hr : updateFirstMatch p f rest with
        | none => exact ih hr x hxr
        | some lr => rw [hr] at h; exact absurd h (by simp)

/-- C7: every operation on the day collection keeps at most one entry per
date: the merge-mode load unconditionally, the replace-mode load whenever the
server days have pairwise distinct normalized dates, and the optimistic
toggle whenever the collection's dates and the toggled day key are
normalization-fixed and the update/create callbacks respect dates. -/
theorem day_collection_unique_dates :
    (∀ (norm : String → String) (pending : List String)
        (serverData prevStats : List DayStat),
      datesNodup (mergeDailyStats norm pending serverData prevStats)) ∧
    (∀ (norm : String → String) (serverData : List DayStat),
      (serverData.map (fun d => norm d.date)).Nodup →
      datesNodup (replaceDailyStats norm serverData)) ∧
    (∀ (norm : String → String)
        (upd : DayStat → String → Option Bool → DayStat)
        (create : String → Option Bool → String → DayStat)
        (prev : List DayStat) (id dateStr : String) (value : Option Bool),
      (∀ d : DayStat, (upd d id value).date = d.date) →
      (create id value dateStr).date = dateStr →
      (∀ d ∈ prev, norm d.date = d.date) →
      norm dateStr = dateStr →
      datesNodup prev →
      datesNodup (applyOptimistic norm upd create prev id dateStr value)) := by
  refine ⟨?_, ?_, ?_⟩
  · intro norm pending serverData prevStats
    have hwf := mapWf_mergeMap norm pending serverData prevStats
    unfold datesNodup mergeDailyStats
    rw [List.map_map]
    have heq : (mergeMap norm pending serverData prevStats).map
        ((fun d => d.date) ∘ fun p => p.2) =
        (mergeMap norm pending serverData prevStats).map (fun p => p.1) :=
      List.map_congr_left (fun q hq => hwf.2 q hq)
    rw [heq]
    exact hwf.1
  · intro norm serverData h
    unfold datesNodup replaceDailyStats
    rw [List.map_map]
    exact h
  · intro norm upd create prev id dateStr value hupd hcreate hfixall hfixkey hnd
    cases hm : updateFirstMatch (fun d => norm d.date == dateStr)
        (fun d => upd d id value) prev with
    | some l1 =>
      rw [applyOptimistic_some norm upd create prev id dateStr value l1 hm]
      unfold datesNodup
      rw [updateFirstMatch_map_date _ _ (fun d => hupd d) prev l1 hm]
      exact hnd
    | none =>
      rw [applyOptimistic_none norm upd create prev id dateStr value hm]
      have hall := updateFirstMatch_none_forall _ _ prev hm
      have hperm := List.mergeSort_perm (prev ++ [create id value dateStr])
        (fun a b : DayStat => dateLe a.date b.date)
      unfold datesNodup
      rw [(hperm.map (fun d => d.date)).nodup_iff, List.map_append]
      have hsingle : [create id value dateStr].map (fun d => d.date) = [dateStr] := by
        simp [hcreate]
      rw [hsingle]
      have hperm2 := List.perm_append_singleton dateStr (prev.map (fun d => d.date))
      rw [hperm2.nodup_iff, List.nodup_cons]
      constructor
      · intro hmem
        obtain ⟨d, hd, hdate⟩ := List.mem_map.mp hmem
        have hp := hall d hd
        rw [hfixall d hd, hdate] at hp
        simp at hp
      · exact hnd

/-- Witness for C7: the three parts applied at the merge scenario of the
spec, a two-day server replacement, and a concrete in-place toggle. -/
theorem day_collection_unique_dates_witness :
    datesNodup (mergeDailyStats (fun s => s) ["2024-03-03-h1"]
      [⟨"2024-03-03", [("h1", true)], 50⟩]
      [⟨"2024-03-03", [("h1", true), ("h2", true)], 100⟩]) ∧
    datesNodup (replaceDailyStats (fun s => s)
      [⟨"2024-03-01", [], 0⟩, ⟨"2024-03-02", [("h1", true)], 100⟩]) ∧
    datesNodup (applyOptimistic (fun s => s) (habitUpdateStats 1)
      (habitCreateNewDayStat 1) [⟨"2024-03-04", [("h1", true)], 100⟩]
      "h1" "2024-03-04" none) := by
  refine ⟨day_collection_unique_dates.1 _ _ _ _, ?_, ?_⟩
  · exact day_collection_unique_dates.2.1 (fun s => s) _ (by decide)
  · exact day_collection_unique_dates.2.2 (fun s => s) (habitUpdateStats 1)
      (habitCreateNewDayStat 1) [⟨"2024-03-04", [("h1", true)], 100⟩]
      "h1" "2024-03-04" none (fun d => rfl) rfl (by decide) rfl
      (by unfold datesNodup; decide)

/-! ## Stats loader with the request-epoch guard (`useTrackerData.js` 55–133)

`counter` is `latestRefreshRequestRef.current`.  A `loadDailyStats` call
splits into the synchronous part before the `await` (guards, increment and
capture) and the response continuation (epoch check and state update). -/
structure LoaderState where
  counter : Nat
  dailyStats : List DayStat
  deriving Repr, DecidableEq

/-- Outcome of the synchronous prefix of `loadDailyStats`. -/
inductive StartResult where
  | cleared (s : LoaderState)
  | skipped (s : LoaderState)
  | dispatched (s : LoaderState) (requestId : Nat)
  deriving Repr, DecidableEq

/-- Lines 57–73: clear the collection and stop when `shouldLoadDailyStats()`
is false; return without fetching unless the view is week or month; otherwise
increment the epoch and capture it (`const requestId =
++latestRefreshRequestRef.current`) before awaiting the fetch. -/
def loadDailyStatsStart (shouldLoad : Bool) (view : String) (s : LoaderState) :
    StartResult :=
  if !shouldLoad then
    StartResult.cleared { s with dailyStats := [] }
  else if view = "week" ∨ view = "month" then
    StartResult.dispatched { s with counter := s.counter + 1 } (s.counter + 1)
  else
    StartResult.skipped s

/-- Lines 77–127: the response continuation.  A response is dropped whenever
its captured `requestId` no longer equals the current epoch; otherwise the
collection is merged or replaced. -/
def loadDailyStatsFinish (norm : String → String) (pending : List String)
    (mergeFlag : Bool) (s : LoaderState) (requestId : Nat)
    (serverDays : List DayStat) : LoaderState :=
  if requestId ≠ s.counter then s
  else
    { s with
      dailyStats :=
        if mergeFlag then mergeDailyStats norm pending serverDays s.dailyStats
        else replaceDailyStats norm serverDays }

/-! ## Claim C2 : epoch guard discards the out-of-order response -/

/-- C2: each dispatch increments the epoch and captures the new value; for
two overlapping dispatches whose responses arrive in reverse order, the
second response is applied and the first arrives to a mismatched epoch and is
discarded with no state change at all. -/
theorem epoch_guard_discards_stale (norm : String → String) (pending : List String)
    (view : String) (s : LoaderState) (mergeFlag1 mergeFlag2 : Bool)
    (data1 data2 : List DayStat) (hview : view = "week" ∨ view = "month") :
    loadDailyStatsStart true view s =
      StartResult.dispatched { s with counter := s.counter + 1 } (s.counter + 1) ∧
    loadDailyStatsStart true view { s with counter := s.counter + 1 } =
      StartResult.dispatched { s with counter := s.counter + 2 } (s.counter + 2) ∧
    (loadDailyStatsFinish norm pending mergeFlag2
        { s with counter := s.counter + 2 } (s.counter + 2) data2).dailyStats =
      (if mergeFlag2 then mergeDailyStats norm pending data2 s.dailyStats
       else replaceDailyStats norm data2) ∧
    loadDailyStatsFinish norm pending mergeFlag1
        (loadDailyStatsFinish norm pending mergeFlag2
          { s with counter := s.counter + 2 } (s.counter + 2) data2)
        (s.counter + 1) data1 =
      loadDailyStatsFinish norm pending mergeFlag2
        { s with counter := s.counter + 2 } (s.counter + 2) data2 := by
  have hstart : ∀ s' : LoaderState, loadDailyStatsStart true view s' =
      StartResult.dispatched { s' with counter := s'.counter + 1 } (s'.counter + 1) := by
    intro s'
    unfold loadDailyStatsStart
    rw [if_neg (by simp), if_pos hview]
  have hfin2 : loadDailyStatsFinish norm pending mergeFlag2
      { s with counter := s.counter + 2 } (s.counter + 2) data2 =
      { counter := s.counter + 2,
        dailyStats :=
          if mergeFlag2 then mergeDailyStats norm pending data2 s.dailyStats
          else replaceDailyStats norm data2 } := by
    unfold loadDailyStatsFinish
    rw [if_neg (by show ¬ (s.counter + 2 ≠ s.counter + 2); omega)]
  refine ⟨hstart s, hstart _, ?_, ?_⟩
  · rw [hfin2]
  · rw [hfin2]
    unfold loadDailyStatsFinish
    rw [if_pos (by show s.counter + 1 ≠ s.counter + 2; omega)]

/-- Witness for C2 at a concrete state: week view, epoch 0, two overlapping
loads with out-of-order arrivals. -/
theorem epoch_guard_discards_stale_witness :
    loadDailyStatsStart true "week" ⟨0, []⟩ =
      StartResult.dispatched ⟨1, []⟩ 1 ∧
    loadDailyStatsStart true "week" ⟨1, []⟩ =
      StartResult.dispatched ⟨2, []⟩ 2 ∧
    (loadDailyStatsFinish (fun x => x) [] false ⟨2, []⟩ 2
        [⟨"2024-03-03", [("h1", true)], 100⟩]).dailyStats =
      [⟨"2024-03-03", [("h1", true)], 100⟩] ∧
    loadDailyStatsFinish (fun x => x) [] false
        (loadDailyStatsFinish (fun x => x) [] false ⟨2, []⟩ 2
          [⟨"2024-03-03", [("h1", true)], 100⟩]) 1 [] =
      loadDailyStatsFinish (fun x => x) [] false ⟨2, []⟩ 2
        [⟨"2024-03-03", [("h1", true)], 100⟩] := by
  have h := epoch_guard_discards_stale (fun x => x) [] "week" ⟨0, []⟩ false false
    [] [⟨"2024-03-03", [("h1", true)], 100⟩] (Or.inl rfl)
  refine ⟨h.1, h.2.1, ?_, h.2.2.2⟩
  rw [h.2.2.1]
  decide

/-! ## Timed model of the debounce scheduler and the deferred pending clear

`debouncedRefresh` (`useTrackerData.js` 167–188) keeps a single timeout:
every call clears the previous one and arms a new one `DEBOUNCE_DELAY_MS`
in the future; on expiry it runs the three loads only when no toggle is
pending.  A successful toggle (`useOptimisticToggle.js` 71–80) calls
`debouncedRefresh()` and then schedules `removeTogglePending` 350 ms later.
The simulation advances one millisecond at a time; at each tick it processes
the script events of that tick, then an expiring timer, then due pending
clears — event times in the scenarios below are distinct, so that ordering
is innocuous. -/

/-- Constant `DEBOUNCE_DELAY_MS` from `dateUtils.js`. -/
def DEBOUNCE_DELAY_MS : Nat := 300

/-- The literal 350 ms delay (`DEBOUNCE_DELAY_MS` plus a 50 ms buffer) in
`useOptimisticToggle.js` line 80. -/
def PENDING_CLEAR_DELAY_MS : Nat := 350

/-- Loads started by the debounce callback. -/
inductive LoadAction where
  | daily (mergeFlag : Bool)
  | streak
  | monthly
  deriving Repr, DecidableEq

/-- Body of the debounce timeout callback: with an empty pending set it runs
`loadDailyStats(true)`, `loadStreakStats()` and, for the year view,
`loadMonthlyStats()`; with a non-empty pending set it runs nothing. -/
def expiryActions (pending : List String) (view : String) : List LoadAction :=
  if pending.isEmpty then
    [LoadAction.daily true, LoadAction.streak] ++
      (if view = "year" then [LoadAction.monthly] else [])
  else []

/-- External events: a toggle marks its key pending when it starts, and a
successful write resolves at some later tick. -/
inductive SimEvent where
  | mark (k : String)
  | succeed (k : String)
  deriving Repr, DecidableEq

structure SimState where
  pending : List String
  timerExpiry : Option Nat
  clearTasks : List (Nat × String)
  executedActions : List LoadAction
  firesLog : List (Nat × Bool)
  deriving Repr, DecidableEq

/-- Effects of one external event at tick `t`: `mark` adds the pending key;
`succeed` re-arms the single debounce timer (cancelling any previous one) and
schedules the deferred pending clear 350 ms later. -/
def processEv (t : Nat) (s : SimState) : SimEvent → SimState
  | SimEvent.mark k => { s with pending := setAdd s.pending k }
  | SimEvent.succeed k =>
    { s with
      timerExpiry := some (t + DEBOUNCE_DELAY_MS),
      clearTasks := s.clearTasks ++ [(t + PENDING_CLEAR_DELAY_MS, k)] }

/-- A timer armed for tick `t` fires: it runs `expiryActions` and is then
spent; the callback never re-arms the timer. -/
def fireTimer (view : String) (t : Nat) (s : SimState) : SimState :=
  if s.timerExpiry = some t then
    { s with
      timerExpiry := none,
      executedActions := s.executedActions ++ expiryActions s.pending view,
      firesLog := s.firesLog ++ [(t, !(expiryActions s.pending view).isEmpty)] }
  else s

/-- Deferred `removeTogglePending` callbacks due at tick `t`. -/
def applyClears (t : Nat) (s : SimState) : SimState :=
  { s with pending := s.pending.filter (fun k => !(s.clearTasks.contains (t, k))) }

def stepAt (view : String) (script : List (Nat × SimEvent)) (t : Nat)
    (s : SimState) : SimState :=
  applyClears t (fireTimer view t
    (((script.filter (fun e => e.1 == t)).map (fun e => e.2)).foldl (processEv t) s))

def initSim : SimState := ⟨[], none, [], [], []⟩

def runSim (view : String) (script : List (Nat × SimEvent)) (horizon : Nat) : SimState :=
  (List.range (horizon + 1)).foldl (fun s t => stepAt view script t s) initSim

/-! ## Claim C3 : the post-success refresh never actually loads -/

/-- A burst of two successful toggles on distinct (date, entity) pairs inside
one debounce interval: marks at 0 ms and 100 ms, write successes at 10 ms and
110 ms. -/
def burstScript : List (Nat × SimEvent) :=
  [(0, SimEvent.mark "2024-03-04-h1"), (10, SimEvent.succeed "2024-03-04-h1"),
   (100, SimEvent.mark "2024-03-05-h2"), (110, SimEvent.succeed "2024-03-05-h2")]

set_option maxRecDepth 100000 in
/-- C3 failing input: the burst arms exactly one coalesced timer, which fires
at 410 ms — 300 ms after the last success — while that toggle's pending key
is still set (it clears only at 460 ms), so the guard skips every load: no
`loadDailyStats(merge=true)`/`loadStreakStats` ever executes, and nothing is
rescheduled even after the pending set drains. -/
theorem burst_refresh_never_executes :
    (runSim "week" burstScript 500).executedActions = [] ∧
    (runSim "week" burstScript 500).firesLog = [(410, false)] ∧
    (runSim "week" burstScript 500).pending = [] := by
  refine ⟨?_, ?_, ?_⟩ <;> decide

/-! ## Claim C4 : the debounce scheduler contract -/

/-- C4: arming is cancel-and-replace with a fixed 300 ms delay; an expiry
with an empty pending set runs exactly `loadDailyStats(merge=true)`,
`loadStreakStats` and — only in the year view — `loadMonthlyStats`; an expiry
with a non-empty pending set runs no load at all and leaves no timer armed. -/
theorem debounced_refresh_contract :
    (∀ (t : Nat) (s : SimState) (k : String),
      (processEv t s (SimEvent.succeed k)).timerExpiry =
        some (t + DEBOUNCE_DELAY_MS)) ∧
    (∀ (pending : List String) (view : String), pending = [] →
      expiryActions pending view =
        [LoadAction.daily true, LoadAction.streak] ++
          (if view = "year" then [LoadAction.monthly] else [])) ∧
    (∀ (pending : List String) (view : String), pending ≠ [] →
      expiryActions pending view = []) ∧
    (∀ (view : String) (t : Nat) (s : SimState),
      s.timerExpiry = some t → s.pending ≠ [] →
      (fireTimer view t s).executedActions = s.executedActions ∧
      (fireTimer view t s).timerExpiry = none) := by
  have hempty : ∀ (pending : List String) (view : String), pending ≠ [] →
      expiryActions pending view = [] := by
    intro pending view h
    unfold expiryActions
    rw [if_neg (by simpa using h)]
  refine ⟨fun t s k => rfl, ?_, hempty, ?_⟩
  · intro pending view h
    rw [h]
    rfl
  · intro view t s ht hp
    unfold fireTimer
    rw [if_pos ht]
    constructor
    · show s.executedActions ++ expiryActions s.pending view = s.executedActions
      rw [hempty s.pending view hp, List.append_nil]
    · rfl

/-- Witness for C4 at concrete inputs: arming at 42 ms over an armed timer,
empty-pending expiry in the year and week views, and a skipped expiry with a
pending key. -/
theorem debounced_refresh_contract_witness :
    (processEv 42 ⟨["2024-03-04-h1"], some 100, [], [], []⟩
        (SimEvent.succeed "2024-03-04-h1")).timerExpiry = some 342 ∧
    expiryActions [] "year" =
      [LoadAction.daily true, LoadAction.streak, LoadAction.monthly] ∧
    expiryActions [] "week" = [LoadAction.daily true, LoadAction.streak] ∧
    expiryActions ["2024-03-04-h1"] "week" = [] ∧
    (fireTimer "week" 310 ⟨["2024-03-04-h1"], some 310, [], [], []⟩).executedActions
      = [] ∧
    (fireTimer "week" 310 ⟨["2024-03-04-h1"], some 310, [], [], []⟩).timerExpiry
      = none := by
  refine ⟨?_, ?_, ?_, ?_, ?_, ?_⟩
  · exact (debounced_refresh_contract.1 42 ⟨["2024-03-04-h1"], some 100, [], [], []⟩
      "2024-03-04-h1").trans (by decide)
  · exact (debounced_refresh_contract.2.1 [] "year" rfl).trans (by decide)
  · exact (debounced_refresh_contract.2.1 [] "week" rfl).trans (by decide)
  · exact debounced_refresh_contract.2.2.1 ["2024-03-04-h1"] "week" (by decide)
  · exact (debounced_refresh_contract.2.2.2 "week" 310
      ⟨["2024-03-04-h1"], some 310, [], [], []⟩ rfl (by decide)).1
  · exact (debounced_refresh_contract.2.2.2 "week" 310
      ⟨["2024-03-04-h1"], some 310, [], [], []⟩ rfl (by decide)).2

/-! ## The `Date` built-in and `toISODateString` (`dateUtils.js` 47–54)

`toISODateString` reads `getFullYear` / `getMonth` / `getDate` off
`new Date(date)` and joins the zero-padded parts.  The ECMAScript `Date`
built-in is embedded as the proleptic Gregorian calendar over epoch
milliseconds with a fixed environment timezone offset `tz`
(`getTimezoneOffset()`, minutes, positive west of UTC): the local date
fields of a timestamp are the civil date of `floor((t - tz·60000) / 86400000)`
days from the epoch, and a date-only ISO string parses as UTC midnight of
its civil date, per the ECMAScript date-time string format.  The calendar
conversion walks years of the 400-year (146097-day) Gregorian cycle and the
months of the found year. -/

/-- Gregorian leap rule for year `400·era + y`, `y < 400`. -/
def leapOfEra (y : Nat) : Bool := (y % 4 == 0 && y % 100 != 0) || (y % 400 == 0)

def yearLen (y : Nat) : Nat := if leapOfEra y then 366 else 365

/-- Days in the first `y` years of a 400-year cycle. -/
def sumYearLens : Nat → Nat
  | 0 => 0
  | y + 1 => sumYearLens y + yearLen y

/-- Locate the year of day `e` of a cycle, walking from year `y`. -/
def yearWalk : Nat → Nat → Nat → Nat × Nat
  | 0, y, e => (y, e)
  | fuel + 1, y, e =>
    if e < yearLen y then (y, e) else yearWalk fuel (y + 1) (e - yearLen y)

/-- Month lengths, month index `0`–`11`. -/
def monthLen (leap : Bool) : Nat → Nat
  | 0 => 31
  | 1 => if leap then 29 else 28
  | 2 => 31
  | 3 => 30
  | 4 => 31
  | 5 => 30
  | 6 => 31
  | 7 => 31
  | 8 => 30
  | 9 => 31
  | 10 => 30
  | _ => 31

/-- Days in the first `m` months of a year. -/
def sumMonthLens (leap : Bool) : Nat → Nat
  | 0 => 0
  | m + 1 => sumMonthLens leap m + monthLen leap m

/-- Locate the month of day `r` of a year, walking from month `m`. -/
def monthWalk (leap : Bool) : Nat → Nat → Nat → Nat × Nat
  | 0, m, r => (m, r)
  | fuel + 1, m, r =>
    if r < monthLen leap m then (m, r)
    else monthWalk leap fuel (m + 1) (r - monthLen leap m)

/-- Civil date (year, month `1`–`12`, day `1`–`31`) of the day `n` days
after 1970-01-01; day 0 of year 0 is 719528 days before the epoch. -/
def civilFromDays (n : Int) : Int × Nat × Nat :=
  (400 * ((n + 719528) / 146097) +
      ((yearWalk 399 0 ((n + 719528) % 146097).toNat).1 : Int),
   (monthWalk (leapOfEra (yearWalk 399 0 ((n + 719528) % 146097).toNat).1) 11 0
      (yearWalk 399 0 ((n + 719528) % 146097).toNat).2).1 + 1,
   (monthWalk (leapOfEra (yearWalk 399 0 ((n + 719528) % 146097).toNat).1) 11 0
      (yearWalk 399 0 ((n + 719528) % 146097).toNat).2).2 + 1)

/-- Days from the epoch to civil date `(y, m, d)` (month `1`–`12`, day from
`1`): the day count a date-only ISO string denotes at UTC midnight. -/
def daysFromCivil (y : Int) (m d : Nat) : Int :=
  (y / 400) * 146097 +
    ((sumYearLens (y - 400 * (y / 400)).toNat
        + sumMonthLens (leapOfEra (y - 400 * (y / 400)).toNat) (m - 1)
        + (d - 1) : Nat) : Int)
    - 719528

def msPerDay : Int := 86400000

def msPerMin : Int := 60000

/-- Inputs of `toISODateString`: a timestamp (or `Date` holding one), a
date-only ISO string, or anything `new Date` turns into `Invalid Date`. -/
inductive DateLike where
  | ms (t : Int)
  | isoDate (y : Int) (m d : Nat)
  | invalid
  deriving Repr, DecidableEq

/-- Time value of `new Date(x)`: date-only strings are UTC midnight,
invalid input has no time value (`NaN`). -/
def jsDateValue : DateLike → Option Int
  | DateLike.ms t => some t
  | DateLike.isoDate y m d => some (daysFromCivil y m d * msPerDay)
  | DateLike.invalid => none

/-- Local calendar day of a timestamp under offset `tz`. -/
def localDay (tz : Int) (t : Int) : Int := (t - tz * msPerMin) / msPerDay

/-- Padding `String(n).padStart(2, '0')` for the numeric month and day fields. -/
def pad2 (n : Nat) : String := if n < 10 then "0" ++ toString n else toString n

/-- Function `toISODateString` of `dateUtils.js`: local year, padded month and day
joined with hyphens; on an invalid date every `getFullYear`-style read is
`NaN` and the template yields the literal `NaN-NaN-NaN`. -/
def toISODateString (tz : Int) (x : DateLike) : String :=
  match jsDateValue x with
  | none => "NaN-NaN-NaN"
  | some t =>
    let c := civilFromDays (localDay tz t)
    toString c.1 ++ "-" ++ pad2 c.2.1 ++ "-" ++ pad2 c.2.2

/-- The civil triple the produced day-key string spells out. -/
def dayKeyParts (tz : Int) (x : DateLike) : Option (Int × Nat × Nat) :=
  (jsDateValue x).map (fun t => civilFromDays (localDay tz t))

/-- Re-parsing the produced day key through `new Date`: a well-formed
`y-mm-dd` string is the date-only ISO form and parses as UTC midnight of its
civil date; the `NaN-NaN-NaN` sentinel is invalid. -/
def reserializeKey (tz : Int) (x : DateLike) : DateLike :=
  match dayKeyParts tz x with
  | some (y, m, d) => DateLike.isoDate y m d
  | none => DateLike.invalid

/-! ### Calendar walk lemmas -/

theorem yearWalk_inv : ∀ (fuel y e : Nat),
    sumYearLens (yearWalk fuel y e).1 + (yearWalk fuel y e).2 = sumYearLens y + e := by
  intro fuel
  induction fuel with
  | zero => intro y e; rfl
  | succ fuel ih =>
    intro y e
    simp only [yearWalk]
    by_cases h : e < yearLen y
    · rw [if_pos h]
    · rw [if_neg h]
      rw [ih (y + 1) (e - yearLen y)]
      have hs : sumYearLens (y + 1) = sumYearLens y + yearLen y := rfl
      omega

theorem yearWalk_le : ∀ (fuel y e : Nat), (yearWalk fuel y e).1 ≤ y + fuel := by
  intro fuel
  induction fuel with
  | zero => intro y e; exact Nat.le_refl y
  | succ fuel ih =>
    intro y e
    simp only [yearWalk]
    by_cases h : e < yearLen y
    · rw [if_pos h]
      omega
    · rw [if_neg h]
      have := ih (y + 1) (e - yearLen y)
      omega

theorem yearWalk_lt : ∀ (fuel y e : Nat),
    sumYearLens y + e < sumYearLens (y + fuel + 1) →
    (yearWalk fuel y e).2 < yearLen (yearWalk fuel y e).1 := by
  intro fuel
  induction fuel with
  | zero =>
    intro y e h
    rw [Nat.add_zero] at h
    have hs : sumYearLens (y + 1) = sumYearLens y + yearLen y := rfl
    simp only [yearWalk]
    omega
  | succ fuel ih =>
    intro y e h
    simp only [yearWalk]
    by_cases hy : e < yearLen y
    · rw [if_pos hy]
      exact hy
    · rw [if_neg hy]
      apply ih (y + 1) (e - yearLen y)
      have hs : sumYearLens (y + 1) = sumYearLens y + yearLen y := rfl
      have harr : y + 1 + fuel + 1 = y + (fuel + 1) + 1 := by omega
      rw [harr]
      omega

theorem monthWalk_inv (leap : Bool) : ∀ (fuel m r : Nat),
    sumMonthLens leap (monthWalk leap fuel m r).1 + (monthWalk leap fuel m r).2 =
      sumMonthLens leap m + r := by
  intro fuel
  induction fuel with
  | zero => intro m r; rfl
  | succ fuel ih =>
    intro m r
    simp only [monthWalk]
    by_cases h : r < monthLen leap m
    · rw [if_pos h]
    · rw [if_neg h]
      rw [ih (m + 1) (r - monthLen leap m)]
      have hs : sumMonthLens leap (m + 1) = sumMonthLens leap m + monthLen leap m := rfl
      omega

theorem monthWalk_le (leap : Bool) : ∀ (fuel m r : Nat),
    (monthWalk leap fuel m r).1 ≤ m + fuel := by
  intro fuel
  induction fuel with
  | zero => intro m r; exact Nat.le_refl m
  | succ fuel ih =>
    intro m r
    simp only [monthWalk]
    by_cases h : r < monthLen leap m
    · rw [if_pos h]
      omega
    · rw [if_neg h]
      have := ih (m + 1) (r - monthLen leap m)
      omega

theorem monthWalk_lt (leap : Bool) : ∀ (fuel m r : Nat),
    sumMonthLens leap m + r < sumMonthLens leap (m + fuel + 1) →
    (monthWalk leap fuel m r).2 < monthLen leap (monthWalk leap fuel m r).1 := by
  intro fuel
  induction fuel with
  | zero =>
    intro m r h
    rw [Nat.add_zero] at h
    have hs : sumMonthLens leap (m + 1) = sumMonthLens leap m + monthLen leap m := rfl
    simp only [monthWalk]
    omega
  | succ fuel ih =>
    intro m r h
    simp only [monthWalk]
    by_cases hm : r < monthLen leap m
    · rw [if_pos hm]
      exact hm
    · rw [if_neg hm]
      apply ih (m + 1) (r - monthLen leap m)
      have hs : sumMonthLens leap (m + 1) = sumMonthLens leap m + monthLen leap m := rfl
      have harr : m + 1 + fuel + 1 = m + (fuel + 1) + 1 := by omega
      rw [harr]
      omega

set_option maxRecDepth 4000 in
theorem sumYearLens_400 : sumYearLens 400 = 146097 := by decide

theorem sumMonthLens_12 (leap : Bool) :
    sumMonthLens leap 12 = if leap then 366 else 365 := by
  cases leap <;> decide

theorem monthLen_le_31 (leap : Bool) (m : Nat) : monthLen leap m ≤ 31 := by
  rcases m with _|_|_|_|_|_|_|_|_|_|_|m <;> cases leap <;> simp [monthLen]

theorem yearLen_eq_sumMonthLens (y : Nat) :
    yearLen y = sumMonthLens (leapOfEra y) 12 := by
  rw [sumMonthLens_12]
  unfold yearLen
  cases leapOfEra y <;> rfl

/-- Splitting `daysFromCivil` at a year given by cycle and year-of-cycle. -/
theorem daysFromCivil_split (era : Int) (yy : Nat) (hyy : yy ≤ 399) (m d : Nat) :
    daysFromCivil (400 * era + (yy : Int)) m d =
      era * 146097 +
        ((sumYearLens yy + sumMonthLens (leapOfEra yy) (m - 1) + (d - 1) : Nat) : Int)
        - 719528 := by
  unfold daysFromCivil
  have hera : (400 * era + (yy : Int)) / 400 = era := by omega
  rw [hera]
  have hyy2 : (400 * era + (yy : Int) - 400 * era).toNat = yy := by omega
  rw [hyy2]

/-- The calendar round trip with the field bounds of the produced date. -/
theorem civilFromDays_spec (n : Int) :
    daysFromCivil (civilFromDays n).1 (civilFromDays n).2.1 (civilFromDays n).2.2 = n ∧
    1 ≤ (civilFromDays n).2.1 ∧ (civilFromDays n).2.1 ≤ 12 ∧
    1 ≤ (civilFromDays n).2.2 ∧ (civilFromDays n).2.2 ≤ 31 := by
  unfold civilFromDays
  have hmod0 : 0 ≤ (n + 719528) % 146097 := Int.emod_nonneg _ (by norm_num)
  have hmod1 : (n + 719528) % 146097 < 146097 := Int.emod_lt_of_pos _ (by norm_num)
  set e : Nat := ((n + 719528) % 146097).toNat with hedef
  have hecast : (e : Int) = (n + 719528) % 146097 := Int.toNat_of_nonneg hmod0
  have he : e < 146097 := by omega
  set yw := yearWalk 399 0 e with hyw
  have hyinv := yearWalk_inv 399 0 e
  rw [← hyw] at hyinv
  have hsy0 : sumYearLens 0 = 0 := rfl
  have hyle : yw.1 ≤ 399 := by
    have := yearWalk_le 399 0 e
    rw [← hyw] at this
    omega
  have hylt : yw.2 < yearLen yw.1 := by
    have h1 : sumYearLens 0 + e < sumYearLens (0 + 399 + 1) := by
      show sumYearLens 0 + e < sumYearLens 400
      rw [sumYearLens_400]
      omega
    have := yearWalk_lt 399 0 e h1
    rw [← hyw] at this
    exact this
  set mw := monthWalk (leapOfEra yw.1) 11 0 yw.2 with hmw
  have hminv := monthWalk_inv (leapOfEra yw.1) 11 0 yw.2
  rw [← hmw] at hminv
  have hsm0 : sumMonthLens (leapOfEra yw.1) 0 = 0 := rfl
  have hmle : mw.1 ≤ 11 := by
    have := monthWalk_le (leapOfEra yw.1) 11 0 yw.2
    rw [← hmw] at this
    omega
  have hmlt : mw.2 < monthLen (leapOfEra yw.1) mw.1 := by
    have h1 : sumMonthLens (leapOfEra yw.1) 0 + yw.2 <
        sumMonthLens (leapOfEra yw.1) (0 + 11 + 1) := by
      show sumMonthLens (leapOfEra yw.1) 0 + yw.2 < sumMonthLens (leapOfEra yw.1) 12
      rw [← yearLen_eq_sumMonthLens yw.1]
      omega
    have := monthWalk_lt (leapOfEra yw.1) 11 0 yw.2 h1
    rw [← hmw] at this
    exact this
  have hm31 := monthLen_le_31 (leapOfEra yw.1) mw.1
  refine ⟨?_, ?_, ?_, ?_, ?_⟩
  case refine_2 =>
    show 1 ≤ mw.1 + 1
    omega
  case refine_3 =>
    show mw.1 + 1 ≤ 12
    omega
  case refine_4 =>
    show 1 ≤ mw.2 + 1
    omega
  case refine_5 =>
    show mw.2 + 1 ≤ 31
    omega
  show daysFromCivil (400 * ((n + 719528) / 146097) + (yw.1 : Int))
      (mw.1 + 1) (mw.2 + 1) = n
  rw [daysFromCivil_split _ yw.1 hyle]
  have hsimp1 : mw.1 + 1 - 1 = mw.1 := by omega
  have hsimp2 : mw.2 + 1 - 1 = mw.2 := by omega
  rw [hsimp1, hsimp2]
  have hnat : sumYearLens yw.1 + sumMonthLens (leapOfEra yw.1) mw.1 + mw.2 = e := by
    omega
  rw [hnat]
  have hdiv : n + 719528 = 146097 * ((n + 719528) / 146097) + (n + 719528) % 146097 :=
    (Int.ediv_add_emod _ _).symm
  omega

/-! ## Claim C8 : day-key purity and re-serialization stability -/

set_option maxRecDepth 20000 in
/-- C8 counterexample: in a west-of-UTC environment (`getTimezoneOffset() =
300`, UTC−5), the epoch timestamp renders as `1969-12-31`, but re-serializing
that very day key renders `1969-12-30` — `toDayKey(toDayKey(x)) ≠
toDayKey(x)`, because the date-only string re-parses as UTC midnight, which
falls on the previous local day. -/
theorem reserialize_shifts_day_west :
    toISODateString 300 (DateLike.ms 0) = "1969-12-31" ∧
    toISODateString 300 (reserializeKey 300 (DateLike.ms 0)) = "1969-12-30" ∧
    (toISODateString 300 (reserializeKey 300 (DateLike.ms 0)) ==
      toISODateString 300 (DateLike.ms 0)) = false := by
  refine ⟨?_, ?_, ?_⟩ <;> decide

/-- Rendering equation used below: any input with a time value renders the
civil date of its local day. -/
theorem toISODateString_of_value (tz : Int) (x : DateLike) (t : Int)
    (ht : jsDateValue x = some t) :
    toISODateString tz x =
      toString (civilFromDays (localDay tz t)).1 ++ "-" ++
        pad2 (civilFromDays (localDay tz t)).2.1 ++ "-" ++
        pad2 (civilFromDays (localDay tz t)).2.2 := by
  unfold toISODateString
  rw [ht]

/-- C8 as amended: `toISODateString` is pure and gives one fixed string for
all timestamps of one local calendar day; re-serialization stability
`toDayKey(toDayKey(x)) = toDayKey(x)` holds for every valid input whenever
the environment is at or east of UTC (`getTimezoneOffset() ≤ 0`), and fails
west of UTC as the counterexample shows. -/
theorem toISODateString_day_key_laws :
    (∀ tz t1 t2 : Int, localDay tz t1 = localDay tz t2 →
      toISODateString tz (DateLike.ms t1) = toISODateString tz (DateLike.ms t2)) ∧
    (∀ (tz : Int) (x : DateLike), -1440 < tz → tz ≤ 0 →
      (jsDateValue x).isSome = true →
      toISODateString tz (reserializeKey tz x) = toISODateString tz x) := by
  constructor
  · intro tz t1 t2 h
    rw [toISODateString_of_value tz (DateLike.ms t1) t1 rfl,
      toISODateString_of_value tz (DateLike.ms t2) t2 rfl, h]
  · intro tz x h1 h2 hsome
    obtain ⟨t, ht⟩ := Option.isSome_iff_exists.mp hsome
    rcases hceq : civilFromDays (localDay tz t) with ⟨y, m, d⟩
    have hparts : dayKeyParts tz x = some (y, m, d) := by
      unfold dayKeyParts
      rw [ht]
      show some (civilFromDays (localDay tz t)) = some (y, m, d)
      rw [hceq]
    have hres : reserializeKey tz x = DateLike.isoDate y m d := by
      unfold reserializeKey
      rw [hparts]
    have hspec := (civilFromDays_spec (localDay tz t)).1
    rw [hceq] at hspec
    have hdfc : daysFromCivil y m d = localDay tz t := hspec
    have hld : localDay tz (daysFromCivil y m d * msPerDay) = localDay tz t := by
      rw [hdfc]
      show (localDay tz t * msPerDay - tz * msPerMin) / msPerDay = localDay tz t
      unfold msPerDay msPerMin
      omega
    rw [hres,
      toISODateString_of_value tz (DateLike.isoDate y m d)
        (daysFromCivil y m d * msPerDay) rfl,
      hld, toISODateString_of_value tz x t ht]

/-- Witness for C8 at concrete inputs: midnight and noon of 1970-01-01 UTC
share one key, and re-serialization is stable at UTC. -/
theorem toISODateString_day_key_laws_witness :
    toISODateString 0 (DateLike.ms 0) = toISODateString 0 (DateLike.ms 43200000) ∧
    toISODateString 0 (reserializeKey 0 (DateLike.ms 0)) =
      toISODateString 0 (DateLike.ms 0) := by
  constructor
  · exact toISODateString_day_key_laws.1 0 0 43200000 (by decide)
  · exact toISODateString_day_key_laws.2 0 (DateLike.ms 0) (by decide) (by decide)
      (by decide)

/-! ## Claim C9 : invalid dates do not raise, they yield the sentinel -/

/-- C9 counterexample: an invalid date input makes `toISODateString` return
the plain string `NaN-NaN-NaN` — the function (whose body contains no throw
site, `new Date` never throwing) completes normally instead of failing with
an `InvalidDateError`. -/
theorem invalid_date_yields_sentinel :
    toISODateString 0 DateLike.invalid = "NaN-NaN-NaN" := rfl

set_option maxRecDepth 2000 in
theorem pad2_day_last_not_nan :
    ∀ dd : Nat, dd < 32 → ((pad2 dd).data.getLast?.getD 'N' == 'N') = false := by
  decide

theorem string_append_data_getLast? (a b : String) :
    (a ++ b).data.getLast? = b.data.getLast?.or a.data.getLast? := by
  rw [String.data_append, List.getLast?_append]

/-- C9 as amended: for every invalid date input `toISODateString` raises
nothing and returns the fixed sentinel `NaN-NaN-NaN` (independent of the
current time, so the input is never coerced to today), and the sentinel is
never the key of any actual timestamp: every real output ends in a digit of
its two-digit day field. -/
theorem invalid_date_sentinel_never_today :
    (∀ tz : Int, toISODateString tz DateLike.invalid = "NaN-NaN-NaN") ∧
    (∀ tz t : Int, (toISODateString tz (DateLike.ms t) == "NaN-NaN-NaN") = false) := by
  constructor
  · intro tz
    rfl
  · intro tz t
    rw [beq_eq_false_iff_ne]
    intro hcon
    have hspec := civilFromDays_spec (localDay tz t)
    have hd31 : (civilFromDays (localDay tz t)).2.2 < 32 := by
      have := hspec.2.2.2.2
      omega
    rw [toISODateString_of_value tz (DateLike.ms t) t rfl] at hcon
    have hlast := congrArg (fun s : String => s.data.getLast?) hcon
    simp only at hlast
    rw [string_append_data_getLast?] at hlast
    cases hgl : (pad2 (civilFromDays (localDay tz t)).2.2).data.getLast? with
    | none =>
      have hfact := pad2_day_last_not_nan (civilFromDays (localDay tz t)).2.2 hd31
      rw [hgl] at hfact
      exact absurd hfact (by decide)
    | some ch =>
      rw [hgl] at hlast
      have hlhs : (some ch).or ((toString (civilFromDays (localDay tz t)).1 ++ "-" ++
          pad2 (civilFromDays (localDay tz t)).2.1 ++ "-").data).getLast? = some ch := rfl
      rw [hlhs] at hlast
      have hrhs : ("NaN-NaN-NaN".data).getLast? = some 'N' := by decide
      rw [hrhs] at hlast
      injection hlast with hch
      have hfact := pad2_day_last_not_nan (civilFromDays (localDay tz t)).2.2 hd31
      rw [hgl, hch] at hfact
      exact absurd hfact (by decide)

end LifeTracker
